import Mathlib

/-!
Shallow embedding of the scalegrease crontab deployment core,
`src/scalegrease/launch.py` (Python 2).

The embedded pieces are:
* `KafkaLauncher._validate_name`  — `validate_name`
* `KafkaLauncher._package_prefix` — `package_pfx`
* `KafkaLauncher._update_crontabs` — `update_crontabs` (with the two inner
  loops `runDeletes` and `runWrites`, and the inner `name_transform`)
* `KafkaLauncher._handle_cron_msg` — `handle_cron_msg`
* `KafkaLauncher.snatch`          — `snatch`
* `KafkaLauncher.launch` (message construction) — `launchMsg`

Python strings are modelled as `List Char`; the flat crontab directory and
any other files are modelled as an association list from full path to file
content.  I/O failures of `os.remove` and `system.write_file` are modelled
by oracles returning the exception class a call raises, if any: in
Python 2 `IOError` and `OSError` are distinct classes (`os.remove` raises
`OSError`, while the `open`-based `system.write_file` raises `IOError`),
and an `except IOError` clause catches only `IOError`.  An uncaught
exception aborts `_update_crontabs`, which is recorded in `RunResult.err`.
-/

/-- Python strings are modelled as lists of characters. -/
abbrev Str := List Char

/-- Configuration values read from `self._config` in `KafkaLauncher`:
`uniquePfx` is the value of the config key `crontab_unique_prefix` and
`crondDir` the value of `crontab_etc_crond`. -/
structure SgConfig where
  uniquePfx : Str
  crondDir : Str
deriving DecidableEq

/-- Split a path at its last slash, as Python `posixpath.split` does before
normalisation: the head keeps everything up to and including the last
slash, the tail is everything after it; with no slash the head is empty. -/
def splitAtLastSlash : Str → Str × Str
  | [] => ([], [])
  | c :: rest =>
    if rest.contains '/' then
      (c :: (splitAtLastSlash rest).1, (splitAtLastSlash rest).2)
    else if c == '/' then ([c], rest)
    else ([], c :: rest)

/-- `posixpath.split` head normalisation: strip trailing slashes unless the
head consists only of slashes (in particular an empty head stays empty). -/
def posixHead (h : Str) : Str :=
  if h.all (fun c => c == '/') then h
  else (h.reverse.dropWhile (fun c => c == '/')).reverse

/-- Python `os.path.dirname`. -/
def dirname (p : Str) : Str := posixHead (splitAtLastSlash p).1

/-- Python `os.path.basename`. -/
def basename (p : Str) : Str := (splitAtLastSlash p).2

/-- Python `s.replace(".", "_")` for a single-character pattern: replace
every dot by an underscore. -/
def dotToUnderscore (s : Str) : Str := s.map (fun c => if c == '.' then '_' else c)

/-- The inner `name_transform` of `KafkaLauncher._update_crontabs`: format
`os.path.dirname(ct)`, a slash, and `os.path.basename(ct).replace(".", "_")`.
Note that for a bare name (no slash) the dirname is empty, so the result
starts with a slash. -/
def name_transform (ct : Str) : Str := dirname ct ++ '/' :: dotToUnderscore (basename ct)

/-- The character class of the regex in `KafkaLauncher._validate_name`:
letters, digits, and the characters dot, underscore, comma, colon, at, dash. -/
def allowedChar (c : Char) : Bool :=
  ('a' ≤ c && c ≤ 'z') || ('A' ≤ c && c ≤ 'Z') || ('0' ≤ c && c ≤ '9') ||
    c == '.' || c == '_' || c == ',' || c == ':' || c == '@' || c == '-'

/-- `KafkaLauncher._validate_name`: `re.match` of a character-class pattern
with quantifier from 1 to 100.  `re.match` anchors only at the start of the
string, so the match succeeds iff the leading run of class characters has
length at least one — trailing characters outside the class, and any length
beyond the first character, never make the match fail. -/
def validate_name (n : Str) : Bool := !(n.takeWhile allowedChar).isEmpty

/-- The local scheduler storage: full file path mapped to file content. -/
abbrev FileSys := List (Str × Str)

/-- Python `os.path.isfile`. -/
def fsIsFile (fs : FileSys) (p : Str) : Bool := fs.any (fun e => e.1 == p)

/-- `system.read_file` on an existing file (callers only read files they
just observed to exist). -/
def fsRead (fs : FileSys) (p : Str) : Str :=
  ((fs.find? (fun e => e.1 == p)).map Prod.snd).getD []

/-- Effect of a successful `os.remove`. -/
def fsRemove (fs : FileSys) (p : Str) : FileSys := fs.filter (fun e => !(e.1 == p))

/-- Effect of a successful `system.write_file`: overwrite in place or create. -/
def fsWrite (fs : FileSys) (p c : Str) : FileSys :=
  if fsIsFile fs p then fs.map (fun e => if e.1 == p then (p, c) else e)
  else fs ++ [(p, c)]

/-- Python `os.listdir(dir)`: the entries of the flat directory `dir`,
i.e. the part after `dir ++ "/"` of every stored path directly inside it. -/
def listDir (fs : FileSys) (dir : Str) : List Str :=
  fs.filterMap (fun e =>
    if (dir ++ ['/']).isPrefixOf e.1 && !((e.1.drop (dir.length + 1)).contains '/') then
      some (e.1.drop (dir.length + 1))
    else none)

/-- `KafkaLauncher._package_prefix`: the ownership token of one
(group, artifact) pair, `uniquePfx ++ "__" ++ g ++ "__" ++ a ++ "__"`. -/
def package_pfx (cfg : SgConfig) (g a : Str) : Str :=
  cfg.uniquePfx ++ "__".toList ++ g ++ "__".toList ++ a ++ "__".toList

/-- The exception classes relevant to `_update_crontabs` in Python 2:
`IOError` and `OSError` are distinct classes there. -/
inductive ErrClass
  | ioErr
  | osErr
deriving DecidableEq

/-- One observable filesystem mutation (or timestamp refresh) performed by
`_update_crontabs`. -/
inductive FsAction
  | removed (path : Str)
  | created (path : Str) (content : Str)
  | overwrote (path : Str) (content : Str)
  | touched (path : Str)
deriving DecidableEq

/-- The path an action acts on. -/
def actionPath : FsAction → Str
  | FsAction.removed p => p
  | FsAction.created p _ => p
  | FsAction.overwrote p _ => p
  | FsAction.touched p => p

/-- Outcome of one `_update_crontabs` call: final filesystem, the mutations
performed in order, and the uncaught exception that aborted the pass, if
any. -/
structure RunResult where
  fs : FileSys
  trace : List FsAction
  err : Option ErrClass
deriving DecidableEq

/-- The deletion loop of `_update_crontabs`: for every existing owned entry
whose part after the package prefix is not among the transformed desired
names, `os.remove` it.  The call is guarded by `except IOError`, which in
Python 2 catches `IOError` only: an `OSError` propagates and aborts the
whole pass. -/
def runDeletes (dir : Str) (pfxLen : Nat) (tforms : List Str)
    (removeErr : Str → Option ErrClass) :
    List Str → FileSys → List FsAction → RunResult
  | [], fs, acc => ⟨fs, acc, none⟩
  | e :: rest, fs, acc =>
    if tforms.contains (List.drop pfxLen e) then
      runDeletes dir pfxLen tforms removeErr rest fs acc
    else
      match removeErr (dir ++ '/' :: e) with
      | none =>
        runDeletes dir pfxLen tforms removeErr rest (fsRemove fs (dir ++ '/' :: e))
          (acc ++ [FsAction.removed (dir ++ '/' :: e)])
      | some ErrClass.ioErr => runDeletes dir pfxLen tforms removeErr rest fs acc
      | some ErrClass.osErr => ⟨fs, acc, some ErrClass.osErr⟩

/-- The write loop of `_update_crontabs`: for every desired (name, content)
pair, write the file at `name_transform(dir ++ "/" ++ pfx ++ name)` when it
is missing or its content differs, else only refresh its timestamp
(`os.utime`).  `system.write_file` is guarded by `except IOError`, which
catches the `IOError` it raises; an `OSError` would propagate. -/
def runWrites (cfg : SgConfig) (pfx : Str) (writeErr : Str → Option ErrClass) :
    List (Str × Str) → FileSys → List FsAction → RunResult
  | [], fs, acc => ⟨fs, acc, none⟩
  | (n, c) :: rest, fs, acc =>
    let dst := name_transform (cfg.crondDir ++ '/' :: (pfx ++ n))
    if !(fsIsFile fs dst) || !(c == fsRead fs dst) then
      match writeErr dst with
      | none =>
        runWrites cfg pfx writeErr rest (fsWrite fs dst c)
          (acc ++ [if fsIsFile fs dst then FsAction.overwrote dst c
                   else FsAction.created dst c])
      | some ErrClass.ioErr => runWrites cfg pfx writeErr rest fs acc
      | some ErrClass.osErr => ⟨fs, acc, some ErrClass.osErr⟩
    else
      runWrites cfg pfx writeErr rest fs (acc ++ [FsAction.touched dst])

/-- `KafkaLauncher._update_crontabs`: list the existing entries of the cron
directory carrying this pair's package prefix, delete the stale ones, then
write or refresh every desired entry. -/
def update_crontabs (cfg : SgConfig) (g a : Str) (tabs : List (Str × Str))
    (removeErr writeErr : Str → Option ErrClass) (fs : FileSys) : RunResult :=
  let pfx := package_pfx cfg g a
  let existing := (listDir fs cfg.crondDir).filter (fun ct => pfx.isPrefixOf ct)
  let tforms := tabs.map (fun t => name_transform t.1)
  let r1 := runDeletes cfg.crondDir pfx.length tforms removeErr existing fs []
  match r1.err with
  | some e => ⟨r1.fs, r1.trace, some e⟩
  | none => runWrites cfg pfx writeErr tabs r1.fs r1.trace

/-- Failure oracle of an error-free run. -/
def noErr : Str → Option ErrClass := fun _ => none

/-- `KafkaLauncher.VERSION`. -/
def VERSION : Int := 1

/-- A decoded deployment message. -/
structure CronMsg where
  version : Int
  group_id : Str
  artifact_id : Str
  crontabs : List (Str × Str)
deriving DecidableEq

/-- One Python dict insertion on an association list: overwrite the value
in place if the key is present, else append the pair. -/
def dictInsert (d : List (Str × Str)) (k v : Str) : List (Str × Str) :=
  if d.any (fun q => q.1 == k) then d.map (fun q => if q.1 == k then (k, v) else q)
  else d ++ [(k, v)]

/-- The Python dict built by `_handle_cron_msg` from the message's crontab
list: one entry per name, where for duplicate names the last pair in the
list wins. -/
def dictOfPairs (l : List (Str × Str)) : List (Str × Str) :=
  l.foldl (fun d q => dictInsert d q.1 q.2) []

/-- How `_handle_cron_msg` disposed of one decoded message. -/
inductive MsgOutcome
  | discarded
  | invalidName
  | applied (r : RunResult)
deriving DecidableEq

/-- `KafkaLauncher._handle_cron_msg` on a message that decoded: discard it
unprocessed when its version differs from `VERSION`; raise `ValueError`
(= `invalidName`, caught by the loop) when an identifier or crontab name
fails validation; otherwise reconcile via `update_crontabs` on the deduped
name-to-content dict. -/
def handle_cron_msg (cfg : SgConfig) (removeErr writeErr : Str → Option ErrClass)
    (m : CronMsg) (fs : FileSys) : FileSys × MsgOutcome :=
  if m.version ≠ VERSION then (fs, MsgOutcome.discarded)
  else if !(validate_name m.group_id && validate_name m.artifact_id) then
    (fs, MsgOutcome.invalidName)
  else
    let d := dictOfPairs m.crontabs
    if d.any (fun q => !(validate_name q.1)) then (fs, MsgOutcome.invalidName)
    else
      let r := update_crontabs cfg m.group_id m.artifact_id d removeErr writeErr fs
      (r.fs, MsgOutcome.applied r)

/-- One raw message pulled from the consumer: its payload string, and the
decoded message when `json.loads` succeeds on it. -/
inductive RawMsg
  | malformed (raw : Str)
  | wellFormed (raw : Str) (m : CronMsg)
deriving DecidableEq

/-- The raw payload of a message. -/
def rawOf : RawMsg → Str
  | RawMsg.malformed r => r
  | RawMsg.wellFormed r _ => r

/-- How the consumption loop disposed of one pulled message. -/
inductive PerMsg
  | decodeFailed
  | handled (o : MsgOutcome)
deriving DecidableEq

/-- `KafkaLauncher.snatch` on a finite backlog (after which `next_message`
times out and returns `None`): pull messages one by one; `if not msg:
break` stops on `None` and also on an empty payload; every exception from
handling one message is caught by the bare `except:` and the loop
continues.  Returns the final filesystem and the per-message outcomes in
order. -/
def snatch (cfg : SgConfig) (removeErr writeErr : Str → Option ErrClass) :
    List RawMsg → FileSys → FileSys × List PerMsg
  | [], fs => (fs, [])
  | msg :: rest, fs =>
    if (rawOf msg).isEmpty then (fs, [])
    else
      match msg with
      | RawMsg.malformed _ =>
        let r := snatch cfg removeErr writeErr rest fs
        (r.1, PerMsg.decodeFailed :: r.2)
      | RawMsg.wellFormed _ m =>
        let h := handle_cron_msg cfg removeErr writeErr m fs
        let r := snatch cfg removeErr writeErr rest h.1
        (r.1, PerMsg.handled h.2 :: r.2)

/-- Content placed in the published message for one crontab file in
`KafkaLauncher.launch`: `system.read_file(cr) + '\n'` — a newline is
appended unconditionally. -/
def publishContent (s : Str) : Str := s ++ ['\n']

/-- The message construction of `KafkaLauncher.launch` from the crontab
file paths and contents: validate the group, artifact and every file path
(a `ValueError` aborts the whole publish, yielding `none`), and pair each
file's base name with its content plus an appended newline. -/
def launchMsg (g a : Str) (files : List (Str × Str)) : Option CronMsg :=
  if !(validate_name g && validate_name a) then none
  else if files.any (fun f => !(validate_name f.1)) then none
  else some ⟨VERSION, g, a, files.map (fun f => (basename f.1, publishContent f.2))⟩

/-!  Claim theorems. -/

/-- C4 (code_bug): the claim says `validate` accepts a string iff it has
length 1 to 100 and consists solely of allowed characters, rejecting in
particular every name containing a slash and every string longer than 100
characters.  The code's `re.match` is not anchored at the end of the
string, so it accepts `"a/b"` (which contains a slash) and a string of 101
letters, while its own error message demands letters and digits only; it
does reject the empty string and strings starting with a disallowed
character, and accepts `"my-job.2"` as claimed. -/
theorem c4_validator_code_bug :
    validate_name "a/b".toList = true ∧
    validate_name (List.replicate 101 'a') = true ∧
    validate_name "my-job.2".toList = true ∧
    validate_name [] = false ∧
    validate_name "/ab".toList = false := by decide

/-- C2 (code_bug): with installed owned files A, B, C and desired set
containing A and C with identical contents, the claim says the pass
deletes exactly B and only refreshes the timestamps of A and C.  The
code's `name_transform` of a bare crontab name prepends a slash (the
dirname of a bare name is empty), so the stale-check `existing[len(pfx):]
not in map(name_transform, ...)` never finds a match: the pass deletes all
three files — A and C included — and then recreates A and C from scratch;
the timestamp-refresh branch never runs. -/
theorem c2_deletion_code_bug :
    update_crontabs ⟨"T".toList, "d".toList⟩ "g".toList "a".toList
      [("jobA".toList, "A\n".toList), ("jobC".toList, "C\n".toList)] noErr noErr
      [("d/T__g__a__jobA".toList, "A\n".toList),
       ("d/T__g__a__jobB".toList, "B\n".toList),
       ("d/T__g__a__jobC".toList, "C\n".toList)]
    = ⟨[("d/T__g__a__jobA".toList, "A\n".toList),
        ("d/T__g__a__jobC".toList, "C\n".toList)],
       [FsAction.removed "d/T__g__a__jobA".toList,
        FsAction.removed "d/T__g__a__jobB".toList,
        FsAction.removed "d/T__g__a__jobC".toList,
        FsAction.created "d/T__g__a__jobA".toList "A\n".toList,
        FsAction.created "d/T__g__a__jobC".toList "C\n".toList],
       none⟩ := by decide

/-- C3 (code_bug): the claim says a second reconciliation with the same
desired set performs zero creations, overwrites and deletions, only
timestamp refreshes.  Because the stale-check of `_update_crontabs` never
matches (see C2), the second pass again deletes the file it installed on
the first pass and recreates it: the second trace is a removal followed by
a creation, with no timestamp refresh. -/
theorem c3_idempotence_code_bug :
    (update_crontabs ⟨"T".toList, "d".toList⟩ "g".toList "a".toList
        [("job".toList, "c\n".toList)] noErr noErr []).trace
      = [FsAction.created "d/T__g__a__job".toList "c\n".toList] ∧
    (update_crontabs ⟨"T".toList, "d".toList⟩ "g".toList "a".toList
        [("job".toList, "c\n".toList)] noErr noErr
        (update_crontabs ⟨"T".toList, "d".toList⟩ "g".toList "a".toList
          [("job".toList, "c\n".toList)] noErr noErr []).fs).trace
      = [FsAction.removed "d/T__g__a__job".toList,
         FsAction.created "d/T__g__a__job".toList "c\n".toList] := by decide

/-- C6 (code_bug): the claim says an individual create/update/delete
failure with an I/O or permission error is skipped and the rest of the
pass still completes.  In Python 2 `os.remove` raises `OSError` (this is
the class of a permission error), which the `except IOError` guard around
it does not catch: the first failing deletion aborts the whole pass — the
second stale file survives and the desired entry is never written (first
conjunct).  Only failures raised as `IOError` are contained: a failing
`system.write_file` is skipped with the remaining entries still processed
(second conjunct), and a deletion failing with `IOError` would be skipped
too (third conjunct) — but `os.remove` never raises that class. -/
theorem c6_failure_policy_code_bug :
    (update_crontabs ⟨"T".toList, "d".toList⟩ "g".toList "a".toList
        [("new".toList, "n\n".toList)]
        (fun p => if p == "d/T__g__a__old1".toList then some ErrClass.osErr else none)
        noErr
        [("d/T__g__a__old1".toList, "x".toList),
         ("d/T__g__a__old2".toList, "y".toList)]
      = ⟨[("d/T__g__a__old1".toList, "x".toList),
          ("d/T__g__a__old2".toList, "y".toList)], [], some ErrClass.osErr⟩) ∧
    (update_crontabs ⟨"T".toList, "d".toList⟩ "g".toList "a".toList
        [("w1".toList, "a\n".toList), ("w2".toList, "b\n".toList)] noErr
        (fun p => if p == "d/T__g__a__w1".toList then some ErrClass.ioErr else none)
        []
      = ⟨[("d/T__g__a__w2".toList, "b\n".toList)],
         [FsAction.created "d/T__g__a__w2".toList "b\n".toList], none⟩) ∧
    (update_crontabs ⟨"T".toList, "d".toList⟩ "g".toList "a".toList []
        (fun p => if p == "d/T__g__a__old1".toList then some ErrClass.ioErr else none)
        noErr
        [("d/T__g__a__old1".toList, "x".toList),
         ("d/T__g__a__old2".toList, "y".toList)]
      = ⟨[("d/T__g__a__old1".toList, "x".toList)],
         [FsAction.removed "d/T__g__a__old2".toList], none⟩) := by decide

/-- C1 counterexample: ownership prefixes are not prefix-free — validated
identifiers may contain underscores, so the pair (g, a__b) owns the
storage name `T__g__a__b__j` (it starts with that pair's prefix
`T__g__a__b__`), yet reconciling the distinct pair (g, a) with an empty
desired set deletes exactly that file. -/
theorem c1_isolation_cex :
    ((package_pfx ⟨"T".toList, "d".toList⟩ "g".toList "a__b".toList).isPrefixOf
        "T__g__a__b__j".toList = true) ∧
    "a".toList ≠ "a__b".toList ∧
    update_crontabs ⟨"T".toList, "d".toList⟩ "g".toList "a".toList [] noErr noErr
        [("d/T__g__a__b__j".toList, "x".toList)]
      = ⟨[], [FsAction.removed "d/T__g__a__b__j".toList], none⟩ := by decide

/-- C7 counterexample: the claim says a file already ending in a newline
is published unchanged.  `KafkaLauncher.launch` appends a newline
unconditionally, so the newline-terminated content `"x\n"` is published as
`"x\n\n"`. -/
theorem c7_publish_cex :
    launchMsg "g".toList "a".toList [("f".toList, "x\n".toList)]
      = some ⟨VERSION, "g".toList, "a".toList, [("f".toList, "x\n\n".toList)]⟩ ∧
    "x\n\n".toList ≠ "x\n".toList := by decide

/-- C8 counterexample: the claim says a backlog of n messages is always
processed in full.  The loop's `if not msg: break` tests Python
truthiness, so an empty message payload stops the drain exactly like a
timeout: of this backlog of 2 messages, 0 are processed. -/
theorem c8_drain_cex :
    ((snatch ⟨[], []⟩ noErr noErr
        [RawMsg.malformed [], RawMsg.malformed "x".toList] []).2).length = 0 ∧
    [RawMsg.malformed [], RawMsg.malformed "x".toList].length = 2 := by decide

/-- C5 (confirmed): a decoded message whose version differs from the
implementation's `VERSION` is discarded before any validation or
reconciliation — the filesystem is untouched and no outcome beyond
`discarded` is produced — and the consumption loop goes on to handle the
remaining backlog from the unchanged filesystem. -/
theorem c5_version_gate (cfg : SgConfig) (removeErr writeErr : Str → Option ErrClass)
    (m : CronMsg) (fs : FileSys) (h : m.version ≠ VERSION) :
    handle_cron_msg cfg removeErr writeErr m fs = (fs, MsgOutcome.discarded) ∧
    ∀ raw rest, raw ≠ [] →
      snatch cfg removeErr writeErr (RawMsg.wellFormed raw m :: rest) fs
        = ((snatch cfg removeErr writeErr rest fs).1,
           PerMsg.handled MsgOutcome.discarded :: (snatch cfg removeErr writeErr rest fs).2) := by
  have h1 : handle_cron_msg cfg removeErr writeErr m fs = (fs, MsgOutcome.discarded) := by
    unfold handle_cron_msg
    simp [h]
  refine ⟨h1, ?_⟩
  intro raw rest hraw
  cases raw with
  | nil => exact absurd rfl hraw
  | cons c cs => simp [snatch, rawOf, h1]

/-- C5 witness: a concrete version-99 message is discarded with the
filesystem unchanged, and a following malformed message is still pulled
and logged by the loop. -/
theorem c5_version_gate_witness :
    handle_cron_msg ⟨"T".toList, "d".toList⟩ noErr noErr
        ⟨99, "g".toList, "a".toList, []⟩ [] = ([], MsgOutcome.discarded) ∧
    snatch ⟨"T".toList, "d".toList⟩ noErr noErr
        [RawMsg.wellFormed "m".toList ⟨99, "g".toList, "a".toList, []⟩,
         RawMsg.malformed "y".toList] []
      = ([], [PerMsg.handled MsgOutcome.discarded, PerMsg.decodeFailed]) := by
  have h := c5_version_gate ⟨"T".toList, "d".toList⟩ noErr noErr
      ⟨99, "g".toList, "a".toList, []⟩ [] (by decide)
  refine ⟨h.1, ?_⟩
  rw [h.2 "m".toList [RawMsg.malformed "y".toList] (by decide)]
  decide

/-- C7 amended: the publisher appends one newline to every file's content
unconditionally (not only when the text lacks one), so the published
content always equals the file text plus a trailing newline and always
ends in a newline; a file already newline-terminated gains an extra
newline rather than being published unchanged. -/
theorem c7_publish_amended (g a : Str) (files : List (Str × Str)) (m : CronMsg)
    (h : launchMsg g a files = some m) :
    m.crontabs = files.map (fun f => (basename f.1, f.2 ++ ['\n'])) ∧
    ∀ nc ∈ m.crontabs, (nc.2 : Str).getLast? = some '\n' := by
  unfold launchMsg at h
  split at h
  · exact absurd h (by simp)
  · split at h
    · exact absurd h (by simp)
    · have hm := Option.some.inj h
      subst hm
      refine ⟨rfl, ?_⟩
      intro nc hnc
      simp only [CronMsg.mk.injEq] at hnc
      obtain ⟨f, _, rfl⟩ := List.mem_map.mp hnc
      exact List.getLast?_concat _

/-- C7 amended witness at a concrete publish: the single file's content
`"x"` is published as `"x\n"`, which ends in a newline. -/
theorem c7_publish_witness :
    (⟨VERSION, "g".toList, "a".toList,
        [("f".toList, "x\n".toList)]⟩ : CronMsg).crontabs
      = [("f".toList, "x".toList)].map (fun f => (basename f.1, f.2 ++ ['\n'])) ∧
    ∀ nc ∈ (⟨VERSION, "g".toList, "a".toList,
        [("f".toList, "x\n".toList)]⟩ : CronMsg).crontabs,
      (nc.2 : Str).getLast? = some '\n' :=
  c7_publish_amended "g".toList "a".toList [("f".toList, "x".toList)]
    ⟨VERSION, "g".toList, "a".toList, [("f".toList, "x\n".toList)]⟩ (by decide)

/-- C8 amended: when every payload of the finite backlog is nonempty (an
empty payload is indistinguishable from a timeout for `if not msg:`), the
drain handles exactly the backlog's messages, one outcome per message in
order, and then returns. -/
theorem c8_drain_amended (cfg : SgConfig) (removeErr writeErr : Str → Option ErrClass)
    (msgs : List RawMsg) (fs : FileSys)
    (h : ∀ m ∈ msgs, rawOf m ≠ []) :
    ((snatch cfg removeErr writeErr msgs fs).2).length = msgs.length := by
  induction msgs generalizing fs with
  | nil => rfl
  | cons msg rest ih =>
    have hrest : ∀ m ∈ rest, rawOf m ≠ [] :=
      fun m hm => h m (List.mem_cons_of_mem _ hm)
    cases msg with
    | malformed r =>
      cases r with
      | nil => exact absurd rfl (h _ (List.mem_cons_self ..))
      | cons c cs => simp [snatch, rawOf, ih _ hrest]
    | wellFormed r m =>
      cases r with
      | nil => exact absurd rfl (h _ (List.mem_cons_self ..))
      | cons c cs => simp [snatch, rawOf, ih _ hrest]

/-- C8 amended witness: a backlog of 3 nonempty messages is processed in
full — exactly 3 outcomes. -/
theorem c8_drain_witness :
    ((snatch ⟨"T".toList, "d".toList⟩ noErr noErr
        [RawMsg.malformed "x".toList, RawMsg.malformed "y".toList,
         RawMsg.wellFormed "z".toList ⟨99, "g".toList, "a".toList, []⟩] []).2).length = 3 :=
  c8_drain_amended ⟨"T".toList, "d".toList⟩ noErr noErr
    [RawMsg.malformed "x".toList, RawMsg.malformed "y".toList,
     RawMsg.wellFormed "z".toList ⟨99, "g".toList, "a".toList, []⟩] [] (by decide)

/-! Helper lemmas about the deletion loop for the empty desired set. -/

theorem fsIsFile_fsRemove_self (fs : FileSys) (p : Str) :
    fsIsFile (fsRemove fs p) p = false := by
  simp [fsIsFile, fsRemove]

theorem fsIsFile_fsRemove_mono (fs : FileSys) (p q : Str)
    (h : fsIsFile fs p = false) : fsIsFile (fsRemove fs q) p = false := by
  simp only [fsIsFile, List.any_eq_false] at h ⊢
  exact fun x hx => h x (List.mem_of_mem_filter hx)

theorem fsIsFile_foldl_remove_mono (dir : Str) (es : List Str) :
    ∀ (fs : FileSys) (p : Str), fsIsFile fs p = false →
    fsIsFile (es.foldl (fun f x => fsRemove f (dir ++ '/' :: x)) fs) p = false := by
  induction es with
  | nil => exact fun fs p h => h
  | cons e rest ih =>
    intro fs p h
    exact ih _ _ (fsIsFile_fsRemove_mono fs p _ h)

theorem fsIsFile_foldl_remove (dir : Str) (es : List Str) :
    ∀ (fs : FileSys) (e : Str), e ∈ es →
    fsIsFile (es.foldl (fun f x => fsRemove f (dir ++ '/' :: x)) fs)
      (dir ++ '/' :: e) = false := by
  induction es with
  | nil => intro fs e h; cases h
  | cons x rest ih =>
    intro fs e h
    rcases List.mem_cons.mp h with rfl | hmem
    · exact fsIsFile_foldl_remove_mono dir rest _ _ (fsIsFile_fsRemove_self fs _)
    · exact ih _ _ hmem

theorem runDeletes_nil_tforms (dir : Str) (pl : Nat) (es : List Str) :
    ∀ (fs : FileSys) (acc : List FsAction),
    runDeletes dir pl [] noErr es fs acc
      = ⟨es.foldl (fun f e => fsRemove f (dir ++ '/' :: e)) fs,
         acc ++ es.map (fun e => FsAction.removed (dir ++ '/' :: e)), none⟩ := by
  induction es with
  | nil => intro fs acc; simp [runDeletes]
  | cons e rest ih =>
    intro fs acc
    rw [runDeletes]
    simp [noErr, ih]

/-- C9 (confirmed): reconciling with an empty desired set performs only
deletions, each of a file of the cron directory whose name carries this
pair's ownership prefix; afterwards no file carrying the prefix remains in
the directory, and the pass completes without error. -/
theorem c9_empty_wipe (cfg : SgConfig) (g a : Str) (fs : FileSys) :
    (∀ act ∈ (update_crontabs cfg g a [] noErr noErr fs).trace,
       ∃ e, act = FsAction.removed (cfg.crondDir ++ '/' :: e) ∧
            (package_pfx cfg g a).isPrefixOf e = true ∧ e ∈ listDir fs cfg.crondDir) ∧
    (∀ e ∈ listDir fs cfg.crondDir, (package_pfx cfg g a).isPrefixOf e = true →
       fsIsFile (update_crontabs cfg g a [] noErr noErr fs).fs
         (cfg.crondDir ++ '/' :: e) = false) ∧
    (update_crontabs cfg g a [] noErr noErr fs).err = none := by
  have hrun : update_crontabs cfg g a [] noErr noErr fs
      = ⟨((listDir fs cfg.crondDir).filter
            (fun ct => (package_pfx cfg g a).isPrefixOf ct)).foldl
           (fun f e => fsRemove f (cfg.crondDir ++ '/' :: e)) fs,
         ((listDir fs cfg.crondDir).filter
            (fun ct => (package_pfx cfg g a).isPrefixOf ct)).map
           (fun e => FsAction.removed (cfg.crondDir ++ '/' :: e)), none⟩ := by
    simp only [update_crontabs, List.map_nil]
    rw [runDeletes_nil_tforms]
    simp [runWrites]
  rw [hrun]
  refine ⟨?_, ?_, rfl⟩
  · intro act hact
    obtain ⟨e, he, rfl⟩ := List.mem_map.mp hact
    exact ⟨e, rfl, (List.mem_filter.mp he).2, (List.mem_filter.mp he).1⟩
  · intro e he hpfx
    exact fsIsFile_foldl_remove _ _ _ _ (List.mem_filter.mpr ⟨he, hpfx⟩)

/-- C9 witness: a concrete owned file is gone after reconciling its pair
with an empty desired set. -/
theorem c9_empty_wipe_witness :
    fsIsFile (update_crontabs ⟨"T".toList, "d".toList⟩ "g".toList "a".toList []
        noErr noErr [("d/T__g__a__x".toList, "c".toList)]).fs
      ("d".toList ++ '/' :: "T__g__a__x".toList) = false :=
  (c9_empty_wipe ⟨"T".toList, "d".toList⟩ "g".toList "a".toList
      [("d/T__g__a__x".toList, "c".toList)]).2.1 "T__g__a__x".toList
    (by decide) (by decide)

/-! Helper lemmas about the Python dict model. -/

theorem keys_map_overwrite (k0 v0 : Str) (d : List (Str × Str)) :
    (d.map (fun q => if q.1 == k0 then (k0, v0) else q)).map Prod.fst
      = d.map Prod.fst := by
  rw [List.map_map]
  apply List.map_congr_left
  intro q hq
  by_cases hq1 : q.1 = k0
  · simp [hq1]
  · simp [hq1]

theorem keys_dictInsert (d : List (Str × Str)) (k v : Str) :
    (dictInsert d k v).map Prod.fst
      = if d.any (fun q => q.1 == k) then d.map Prod.fst
        else d.map Prod.fst ++ [k] := by
  unfold dictInsert
  split
  next => exact keys_map_overwrite k v d
  next => simp

theorem keys_nodup_dictInsert (d : List (Str × Str)) (k v : Str)
    (h : (d.map Prod.fst).Nodup) : ((dictInsert d k v).map Prod.fst).Nodup := by
  rw [keys_dictInsert]
  split
  next => exact h
  next hany =>
    have hk : k ∉ d.map Prod.fst := by
      intro hmem
      obtain ⟨q, hq, rfl⟩ := List.mem_map.mp hmem
      exact hany (List.any_eq_true.mpr ⟨q, hq, by simp⟩)
    simp [List.nodup_append, h, hk]

theorem find?_map_overwrite (k0 v0 k : Str) (d : List (Str × Str)) :
    (d.map (fun q => if q.1 == k0 then (k0, v0) else q)).find? (fun q => q.1 == k)
      = if k = k0 then (if d.any (fun q => q.1 == k0) then some (k0, v0) else none)
        else d.find? (fun q => q.1 == k) := by
  induction d with
  | nil => by_cases hk : k = k0 <;> simp [hk]
  | cons e rest ih =>
    rw [List.map_cons]
    by_cases he : e.1 = k0
    · rw [if_pos (by simp [he])]
      by_cases hk : k = k0
      · subst hk
        rw [List.find?_cons_of_pos _ (by simp), if_pos rfl, List.any_cons]
        simp [he]
      · rw [List.find?_cons_of_neg _ (by simp [Ne.symm hk]), ih, if_neg hk, if_neg hk,
          List.find?_cons_of_neg _ (by simp [he, Ne.symm hk])]
    · rw [if_neg (by simp [he])]
      by_cases pe : e.1 = k
      · have hk : ¬ k = k0 := fun h => he (pe.trans h)
        rw [List.find?_cons_of_pos _ (by simp [pe]), if_neg hk,
          List.find?_cons_of_pos _ (by simp [pe])]
      · rw [List.find?_cons_of_neg _ (by simp [pe]), ih]
        by_cases hk : k = k0
        · rw [if_pos hk, if_pos hk, List.any_cons]
          have hbeq : (e.1 == k0) = false := by simp [he]
          rw [hbeq, Bool.false_or]
        · rw [if_neg hk, if_neg hk, List.find?_cons_of_neg _ (by simp [pe])]

theorem find?_dictInsert (d : List (Str × Str)) (k0 v0 k : Str) :
    (dictInsert d k0 v0).find? (fun q => q.1 == k)
      = if k = k0 then some (k0, v0) else d.find? (fun q => q.1 == k) := by
  unfold dictInsert
  split
  next hany =>
    rw [find?_map_overwrite]
    by_cases hk : k = k0
    · rw [if_pos hk, if_pos hk, if_pos hany]
    · rw [if_neg hk, if_neg hk]
  next hany =>
    rw [List.find?_append]
    by_cases hk : k = k0
    · subst hk
      have hnone : d.find? (fun q => q.1 == k) = none := by
        rw [List.find?_eq_none]
        intro x hx hbeq
        exact hany (List.any_eq_true.mpr ⟨x, hx, hbeq⟩)
      rw [hnone, if_pos rfl]
      simp
    · have hsing : ([((k0 : Str), v0)] : List (Str × Str)).find? (fun q => q.1 == k)
          = none := by
        simp [Ne.symm hk]
      rw [if_neg hk, hsing, Option.or_none]

theorem find?_foldl_dictInsert (k : Str) (l : List (Str × Str)) :
    ∀ d : List (Str × Str),
    ((l.foldl (fun d q => dictInsert d q.1 q.2) d).find? (fun q => q.1 == k))
      = (l.reverse.find? (fun q => q.1 == k)).or (d.find? (fun q => q.1 == k)) := by
  induction l with
  | nil => intro d; simp
  | cons p rest ih =>
    intro d
    rw [List.foldl_cons, ih, List.reverse_cons, List.find?_append, Option.or_assoc]
    congr 1
    rw [find?_dictInsert]
    by_cases hk : k = p.1
    · simp [hk]
    · simp [hk, Ne.symm hk]

theorem keys_nodup_foldl_dictInsert (l : List (Str × Str)) :
    ∀ d : List (Str × Str), (d.map Prod.fst).Nodup →
    (((l.foldl (fun d q => dictInsert d q.1 q.2) d)).map Prod.fst).Nodup := by
  induction l with
  | nil => exact fun d h => h
  | cons p rest ih =>
    intro d h
    exact ih _ (keys_nodup_dictInsert d p.1 p.2 h)

/-- C10 (confirmed): the dict that `_handle_cron_msg` builds from the
message's crontab list — and hands to `_update_crontabs` before any
filesystem change — has pairwise-distinct names, and looking a name up in
it yields exactly the last pair with that name from the original list
(earlier duplicates are discarded). -/
theorem c10_dict_last_wins (l : List (Str × Str)) (k : Str) :
    ((dictOfPairs l).map Prod.fst).Nodup ∧
    (dictOfPairs l).find? (fun q => q.1 == k)
      = l.reverse.find? (fun q => q.1 == k) := by
  constructor
  · exact keys_nodup_foldl_dictInsert l [] (by simp)
  · rw [dictOfPairs, find?_foldl_dictInsert]
    simp

/-! Helper lemmas about `name_transform` and the traces of the two loops. -/

theorem splitAtLastSlash_append (rest : Str) (h : rest.contains '/' = false) :
    ∀ xs : Str, splitAtLastSlash (xs ++ '/' :: rest) = (xs ++ ['/'], rest) := by
  intro xs
  induction xs with
  | nil =>
    rw [List.nil_append, splitAtLastSlash, h]
    simp
  | cons x xs ih =>
    rw [List.cons_append, splitAtLastSlash]
    have hc : (xs ++ '/' :: rest).contains '/' = true := by simp
    rw [hc, ih]
    simp

theorem dotToUnderscore_id (s : Str) (h : s.contains '.' = false) :
    dotToUnderscore s = s := by
  induction s with
  | nil => rfl
  | cons c cs ih =>
    rw [List.contains_cons, Bool.or_eq_false_iff] at h
    have hc : (c == '.') = false := by
      have h1 : ('.' : Char) ≠ c := by simpa using h.1
      simpa using Ne.symm h1
    show (if c == '.' then '_' else c) :: dotToUnderscore cs = c :: cs
    rw [hc, ih h.2]
    simp

theorem name_transform_clean (dir rest : Str)
    (hslash : rest.contains '/' = false) (hdot : rest.contains '.' = false) :
    name_transform (dir ++ '/' :: rest) = posixHead (dir ++ ['/']) ++ '/' :: rest := by
  unfold name_transform dirname basename
  rw [splitAtLastSlash_append rest hslash dir]
  show posixHead (dir ++ ['/']) ++ '/' :: dotToUnderscore rest
    = posixHead (dir ++ ['/']) ++ '/' :: rest
  rw [dotToUnderscore_id rest hdot]

theorem runDeletes_trace_mem (dir : Str) (pl : Nat) (tf : List Str)
    (rErr : Str → Option ErrClass) (es : List Str) :
    ∀ (fs : FileSys) (acc : List FsAction) (act : FsAction),
    act ∈ (runDeletes dir pl tf rErr es fs acc).trace →
    act ∈ acc ∨ ∃ e ∈ es, act = FsAction.removed (dir ++ '/' :: e) := by
  induction es with
  | nil => exact fun fs acc act h => Or.inl h
  | cons e rest ih =>
    intro fs acc act h
    simp only [runDeletes] at h
    split at h
    · rcases ih _ _ _ h with h' | ⟨e', he', rfl⟩
      · exact Or.inl h'
      · exact Or.inr ⟨e', List.mem_cons_of_mem _ he', rfl⟩
    · split at h
      · rcases ih _ _ _ h with h' | ⟨e', he', rfl⟩
        · rcases List.mem_append.mp h' with h'' | h''
          · exact Or.inl h''
          · rw [List.mem_singleton] at h''
            exact Or.inr ⟨e, List.mem_cons_self .., h''⟩
        · exact Or.inr ⟨e', List.mem_cons_of_mem _ he', rfl⟩
      · rcases ih _ _ _ h with h' | ⟨e', he', rfl⟩
        · exact Or.inl h'
        · exact Or.inr ⟨e', List.mem_cons_of_mem _ he', rfl⟩
      · exact Or.inl h

theorem runWrites_trace_mem (cfg : SgConfig) (pfx : Str)
    (wErr : Str → Option ErrClass) (tabs : List (Str × Str)) :
    ∀ (fs : FileSys) (acc : List FsAction) (act : FsAction),
    act ∈ (runWrites cfg pfx wErr tabs fs acc).trace →
    act ∈ acc ∨ ∃ t ∈ tabs,
      actionPath act = name_transform (cfg.crondDir ++ '/' :: (pfx ++ t.1)) := by
  induction tabs with
  | nil => exact fun fs acc act h => Or.inl h
  | cons t rest ih =>
    obtain ⟨n, c⟩ := t
    intro fs acc act h
    simp only [runWrites] at h
    split at h
    · split at h
      · rcases ih _ _ _ h with h' | ⟨t', ht', hp⟩
        · rcases List.mem_append.mp h' with h'' | h''
          · exact Or.inl h''
          · rw [List.mem_singleton] at h''
            refine Or.inr ⟨(n, c), List.mem_cons_self .., ?_⟩
            rw [h'']
            split
            · rfl
            · rfl
        · exact Or.inr ⟨t', List.mem_cons_of_mem _ ht', hp⟩
      · rcases ih _ _ _ h with h' | ⟨t', ht', hp⟩
        · exact Or.inl h'
        · exact Or.inr ⟨t', List.mem_cons_of_mem _ ht', hp⟩
      · exact Or.inl h
    · rcases ih _ _ _ h with h' | ⟨t', ht', hp⟩
      · rcases List.mem_append.mp h' with h'' | h''
        · exact Or.inl h''
        · rw [List.mem_singleton] at h''
          refine Or.inr ⟨(n, c), List.mem_cons_self .., ?_⟩
          rw [h'']
          rfl
      · exact Or.inr ⟨t', List.mem_cons_of_mem _ ht', hp⟩

/-- C1 amended: ownership isolation holds once the two pairs' prefixes are
not prefixes of one another (identifiers containing double underscores can
break that, as the counterexample shows) and the reconciling pair's prefix
and desired names contain no dot or slash (the dot-substitution is applied
to the whole base name, prefix included, so a dotted prefix would make the
written file escape its own prefix).  Under those conditions every
create, update, delete, or timestamp refresh of a reconciliation for
(g1, a1) — with any failure oracles — acts on a file of the cron directory
whose name extends the pair's own ownership prefix, and never on a path
carrying the ownership prefix of the other pair. -/
theorem c1_isolation_amended (cfg : SgConfig) (g1 a1 g2 a2 : Str)
    (tabs : List (Str × Str)) (removeErr writeErr : Str → Option ErrClass)
    (fs : FileSys)
    (hcmp1 : ¬ (package_pfx cfg g1 a1 <+: package_pfx cfg g2 a2))
    (hcmp2 : ¬ (package_pfx cfg g2 a2 <+: package_pfx cfg g1 a1))
    (hdir : posixHead (cfg.crondDir ++ ['/']) = cfg.crondDir)
    (hclean : ∀ t ∈ tabs, (package_pfx cfg g1 a1 ++ t.1).contains '/' = false ∧
                          (package_pfx cfg g1 a1 ++ t.1).contains '.' = false) :
    ∀ act ∈ (update_crontabs cfg g1 a1 tabs removeErr writeErr fs).trace,
      (∃ e, actionPath act = cfg.crondDir ++ '/' :: e ∧
            package_pfx cfg g1 a1 <+: e) ∧
      ¬ ((cfg.crondDir ++ '/' :: package_pfx cfg g2 a2) <+: actionPath act) := by
  have key : ∀ e : Str, package_pfx cfg g1 a1 <+: e →
      ¬ ((cfg.crondDir ++ '/' :: package_pfx cfg g2 a2) <+: (cfg.crondDir ++ '/' :: e)) := by
    intro e hpfx habs
    have h1 : cfg.crondDir ++ '/' :: package_pfx cfg g2 a2
        = (cfg.crondDir ++ ['/']) ++ package_pfx cfg g2 a2 := by simp
    have h2 : cfg.crondDir ++ '/' :: e = (cfg.crondDir ++ ['/']) ++ e := by simp
    rw [h1, h2] at habs
    have habs' : package_pfx cfg g2 a2 <+: e :=
      (List.prefix_append_right_inj (cfg.crondDir ++ ['/'])).mp habs
    rcases List.prefix_or_prefix_of_prefix hpfx habs' with h | h
    · exact hcmp1 h
    · exact hcmp2 h
  intro act hact
  have hchar : (∃ e, act = FsAction.removed (cfg.crondDir ++ '/' :: e) ∧
        (package_pfx cfg g1 a1).isPrefixOf e = true) ∨
      (∃ t ∈ tabs, actionPath act
        = name_transform (cfg.crondDir ++ '/' :: (package_pfx cfg g1 a1 ++ t.1))) := by
    simp only [update_crontabs] at hact
    have hdel : ∀ act' : FsAction, act' ∈ (runDeletes cfg.crondDir
        (package_pfx cfg g1 a1).length (tabs.map (fun t => name_transform t.1)) removeErr
        ((listDir fs cfg.crondDir).filter
          (fun ct => (package_pfx cfg g1 a1).isPrefixOf ct)) fs []).trace →
        ∃ e, act' = FsAction.removed (cfg.crondDir ++ '/' :: e) ∧
          (package_pfx cfg g1 a1).isPrefixOf e = true := by
      intro act' h'
      rcases runDeletes_trace_mem _ _ _ _ _ _ _ _ h' with h0 | ⟨e, he, rfl⟩
      · cases h0
      · exact ⟨e, rfl, (List.mem_filter.mp he).2⟩
    split at hact
    · exact Or.inl (hdel act hact)
    · rcases runWrites_trace_mem _ _ _ _ _ _ _ hact with h0 | ⟨t, ht, hp⟩
      · exact Or.inl (hdel act h0)
      · exact Or.inr ⟨t, ht, hp⟩
  rcases hchar with ⟨e, rfl, hpfx⟩ | ⟨t, ht, hpath⟩
  · have hpfx' : package_pfx cfg g1 a1 <+: e := List.isPrefixOf_iff_prefix.mp hpfx
    exact ⟨⟨e, rfl, hpfx'⟩, key e hpfx'⟩
  · have hc := hclean t ht
    have hpath' : actionPath act
        = cfg.crondDir ++ '/' :: (package_pfx cfg g1 a1 ++ t.1) := by
      rw [hpath, name_transform_clean _ _ hc.1 hc.2, hdir]
    rw [hpath']
    exact ⟨⟨package_pfx cfg g1 a1 ++ t.1, rfl, List.prefix_append _ _⟩,
      key _ (List.prefix_append _ _)⟩

/-- C1 amended witness: a concrete reconciliation of the pair (g, a)
against the unrelated pair (h, b), with one desired entry and one stale
owned file, acts only on names extending its own prefix. -/
theorem c1_isolation_witness :
    ¬ (((⟨"T".toList, "d".toList⟩ : SgConfig).crondDir ++ '/'
          :: package_pfx ⟨"T".toList, "d".toList⟩ "h".toList "b".toList)
        <+: actionPath (FsAction.removed "d/T__g__a__z".toList)) :=
  (c1_isolation_amended ⟨"T".toList, "d".toList⟩ "g".toList "a".toList
    "h".toList "b".toList [("j".toList, "c".toList)] noErr noErr
    [("d/T__g__a__z".toList, "q".toList)]
    (by decide) (by decide) (by decide) (by decide)
    (FsAction.removed "d/T__g__a__z".toList) (by decide)).2
